import Mathlib

/-!
Shallow embedding of `beetsplug/tagsanity.py` (beets-tagsanity plugin).

Python strings are modelled as `List Char`; the Unicode general-category
classification used by the `regex` module's `\p{...}` classes is an explicit
parameter `gc : Char → GC` (the category table is external data, one category
per code point); `unicodedata.normalize` is an opaque parameter; the
`Unidecoder` transliteration capability is an opaque text-to-text function.
Record attribute access (`hasattr`/`getattr`/`setattr`) is modelled by a
partial map from attribute names to values, together with a log of the
attribute names passed to `setattr` (so that "write-back only on change"
is observable).
-/

namespace TagSanity

/-- Unicode general categories (one per code point), as used by the
`\p{..}` character classes in the source's regular expressions. -/
inductive GC where
  | Lu | Ll | Lt | Lm | Lo
  | Mn | Mc | Me
  | Nd | Nl | No
  | Pc | Pd | Ps | Pe | Pi | Pf | Po
  | Sm | Sc | Sk | So
  | Zs | Zl | Zp
  | Cc | Cf | Cs | Co | Cn
  deriving DecidableEq, Repr

/-- Shorthand for building a character from its code point. -/
def chr (n : Nat) : Char := Char.ofNat n

/-- `\p{Z}`: separator categories Zs, Zl, Zp. -/
def isZCat (gc : Char → GC) (c : Char) : Bool :=
  match gc c with
  | .Zs | .Zl | .Zp => true
  | _ => false

/-- `\p{C}`: other categories Cc, Cf, Cs, Co, Cn. -/
def isCCat (gc : Char → GC) (c : Char) : Bool :=
  match gc c with
  | .Cc | .Cf | .Cs | .Co | .Cn => true
  | _ => false

/-- `\p{L}`: letter categories Lu, Ll, Lt, Lm, Lo. -/
def isLCat (gc : Char → GC) (c : Char) : Bool :=
  match gc c with
  | .Lu | .Ll | .Lt | .Lm | .Lo => true
  | _ => false

/-- Characters stripped by Python's `str.strip()` (the Unicode whitespace
set: the Z categories plus the control whitespace code points). -/
def pyWs (gc : Char → GC) (c : Char) : Bool :=
  isZCat gc c ||
    c.toNat ∈ [0x09, 0x0a, 0x0b, 0x0c, 0x0d, 0x1c, 0x1d, 0x1e, 0x1f, 0x85]

/-- Characters matched by the regex `\s` class on Unicode text
(the White_Space property). -/
def reWs (gc : Char → GC) (c : Char) : Bool :=
  isZCat gc c || c.toNat ∈ [0x09, 0x0a, 0x0b, 0x0c, 0x0d, 0x85]

theorem dropWhile_length_le {α : Type} (p : α → Bool) (l : List α) :
    (l.dropWhile p).length ≤ l.length := by
  induction l with
  | nil => simp
  | cons a as ih =>
    rw [List.dropWhile]
    split
    · exact Nat.le_succ_of_le ih
    · simp

/-- `str.strip()`: drop leading and trailing whitespace. -/
def pyStrip (gc : Char → GC) (s : List Char) : List Char :=
  ((s.dropWhile (pyWs gc)).reverse.dropWhile (pyWs gc)).reverse

/-- Worker for `subZ`: the flag records whether the previous character was
part of a separator run already replaced by a space. -/
def subZGo (gc : Char → GC) : Bool → List Char → List Char
  | _, [] => []
  | true, c :: cs =>
    if isZCat gc c then subZGo gc true cs else c :: subZGo gc false cs
  | false, c :: cs =>
    if isZCat gc c then ' ' :: subZGo gc true cs else c :: subZGo gc false cs

/-- `regex.sub(r"\p{Z}+", " ", s)`: every maximal run of separator
characters becomes a single ASCII space. -/
def subZ (gc : Char → GC) (s : List Char) : List Char :=
  subZGo gc false s

/-- `regex.sub(r"\p{Pd}", "-", s)`: dash punctuation becomes an ASCII hyphen. -/
def subPd (gc : Char → GC) (s : List Char) : List Char :=
  s.map fun c => if gc c = .Pd then '-' else c

/-- The four single-quote-like code points rewritten by the source:
grave accent, acute accent, and the curly single quotes. -/
def singleQuoteSet : List Char := [chr 0x60, chr 0xb4, chr 0x2018, chr 0x2019]

/-- The two curly double-quote code points rewritten by the source. -/
def doubleQuoteSet : List Char := [chr 0x201c, chr 0x201d]

/-- `regex.sub(r"[`´‘’]", "'", s)`. -/
def subSq (s : List Char) : List Char :=
  s.map fun c => if c ∈ singleQuoteSet then chr 0x27 else c

/-- `regex.sub(r"[“”]", '"', s)`. -/
def subDq (s : List Char) : List Char :=
  s.map fun c => if c ∈ doubleQuoteSet then chr 0x22 else c

/-- `regex.sub(r"[\p{Pi}\p{Pf}]", '"', s)`. -/
def subPiPf (gc : Char → GC) (s : List Char) : List Char :=
  s.map fun c => if gc c = .Pi ∨ gc c = .Pf then chr 0x22 else c

/-- `regex.sub(r"\p{Ps}", left_bracket, s)`: each open-punctuation
character is replaced by the configured left-bracket string. -/
def subPs (gc : Char → GC) (lb : List Char) : List Char → List Char
  | [] => []
  | c :: cs => (if gc c = .Ps then lb else [c]) ++ subPs gc lb cs

/-- `regex.sub(r"\p{Pe}", right_bracket, s)`: each close-punctuation
character is replaced by the configured right-bracket string. -/
def subPe (gc : Char → GC) (rb : List Char) : List Char → List Char
  | [] => []
  | c :: cs => (if gc c = .Pe then rb else [c]) ++ subPe gc rb cs

/-- `regex.sub(r"(\p{Ll})(\p{Lu})", "\\1 \\2", s)`: insert a space between
a lowercase letter and an immediately following uppercase letter
(left-to-right, non-overlapping matches). -/
def tidyCase (gc : Char → GC) : List Char → List Char
  | [] => []
  | [c] => [c]
  | a :: b :: rest =>
    if gc a = .Ll ∧ gc b = .Lu then a :: ' ' :: b :: tidyCase gc rest
    else a :: tidyCase gc (b :: rest)
termination_by l => l.length
decreasing_by
  · simp only [List.length_cons]; omega
  · simp only [List.length_cons]; omega

/-- One alternative of the tidy-up punctuation regex: does `gc d` belong to
`[\p{Pe}\p{Pf}\p{Po}]`? -/
def isClosingCat (gc : Char → GC) (d : Char) : Bool :=
  match gc d with
  | .Pe | .Pf | .Po => true
  | _ => false

/-- The other alternative: does `gc d` belong to `[\p{Ps}\p{Pi}]`? -/
def isOpeningCat (gc : Char → GC) (d : Char) : Bool :=
  match gc d with
  | .Ps | .Pi => true
  | _ => false

/-- `regex.sub(r"(\p{L})\s+([\p{Pe}\p{Pf}\p{Po}])|([\p{Ps}\p{Pi}])\s+(\p{L})",
"\\1\\3\\2\\4", s)`: remove whitespace between a letter and a following
closing/final/other punctuation character, and between an opening/initial
punctuation character and a following letter (left-to-right scan, resuming
after each match). -/
def tidyPunct (gc : Char → GC) : List Char → List Char
  | [] => []
  | c :: rest =>
    if isLCat gc c then
      match h : rest.dropWhile (reWs gc) with
      | d :: rest' =>
        if rest.takeWhile (reWs gc) ≠ [] ∧ isClosingCat gc d then
          c :: d :: tidyPunct gc rest'
        else c :: tidyPunct gc rest
      | [] => c :: tidyPunct gc rest
    else if isOpeningCat gc c then
      match h : rest.dropWhile (reWs gc) with
      | d :: rest' =>
        if rest.takeWhile (reWs gc) ≠ [] ∧ isLCat gc d then
          c :: d :: tidyPunct gc rest'
        else c :: tidyPunct gc rest
      | [] => c :: tidyPunct gc rest
    else c :: tidyPunct gc rest
termination_by l => l.length
decreasing_by
  all_goals simp_all
  · have hl := dropWhile_length_le (reWs gc) cs
    rw [h] at hl
    simp at hl
    omega
  · have hl := dropWhile_length_le (reWs gc) cs
    rw [h] at hl
    simp at hl
    omega

/-- The four Unicode normal forms accepted by `unicode_normalization_mode`
(`None` is modelled as `Option.none` at use sites). -/
inductive NormMode where
  | NFC | NFKC | NFD | NFKD
  deriving DecidableEq, Repr

/-- The plugin configuration after `setup` (validated values taken from the
config schema).  Bracket replacements are arbitrary strings. -/
structure Config where
  langs_enabled : List String
  tidy_unihandecode : Bool
  drop_feats_from_fields : List String
  simplify_whitespace : Bool
  simplify_hyphens : Bool
  simplify_curly_quotes : Bool
  simplify_brackets : Bool
  left_bracket : List Char
  right_bracket : List Char
  unicode_normalization_mode : Option NormMode
  process_fields : List String
  han_preference : String

/-- `_process_string`: the ordered text pipeline.  `gc` is the Unicode
category table, `normalize` models `unicodedata.normalize`, and `decoder`
models the optional `Unidecoder` capability (`decoder.decode`). -/
def processString (cfg : Config) (gc : Char → GC)
    (normalize : NormMode → List Char → List Char)
    (decoder : Option (List Char → List Char)) (s0 : List Char) : List Char :=
  let s1 := if cfg.simplify_whitespace then subZ gc s0 else s0
  let s2 := if cfg.simplify_hyphens then subPd gc s1 else s1
  let s3 := if cfg.simplify_curly_quotes then subPiPf gc (subDq (subSq s2)) else s2
  let s4 := if cfg.simplify_brackets then
      subPe gc cfg.right_bracket (subPs gc cfg.left_bracket s3)
    else s3
  let s5 := match decoder with
    | some dec =>
      let t := dec s4
      if cfg.tidy_unihandecode then tidyPunct gc (tidyCase gc t) else t
    | none => s4
  let s6 := match cfg.unicode_normalization_mode with
    | some m => (normalize m s5).filter fun c => !(isCCat gc c)
    | none => s5
  pyStrip gc s6

/-- `AVAILABLE_LANG_CODES`. -/
def AVAILABLE_LANG_CODES : List String := ["ja", "kr", "vn", "zh"]

/-- The `lang_map` table built in `setup`; the entry for the ambiguous
script code "Hani" is the configured `han_preference`. -/
def langMapList (hanPref : String) : List (String × String) :=
  [("Hani", hanPref),
   ("Hrkt", "ja"), ("Kana", "ja"), ("Hira", "ja"), ("Jpan", "ja"),
   ("ja", "ja"), ("jpn", "ja"), ("jp", "ja"),
   ("Hang", "kr"), ("Kore", "kr"), ("ko", "kr"), ("kor", "kr"), ("kr", "kr"),
   ("vi", "vn"), ("vie", "vn"), ("vn", "vn"), ("vnm", "vn"),
   ("Hans", "zh"), ("Hant", "zh"), ("zh", "zh"), ("zho", "zh"),
   ("cdo", "zh"), ("cjy", "zh"), ("cmn", "zh"), ("cnp", "zh"),
   ("cpi", "zh"), ("csp", "zh"), ("czh", "zh"), ("czo", "zh"),
   ("cn", "zh"), ("chn", "zh")]

/-- Dictionary lookup in `lang_map` (`self.lang_map[code]` /
`code in self.lang_map`). -/
def langMap (hanPref code : String) : Option String :=
  ((langMapList hanPref).find? fun p => p.1 == code).map Prod.snd

/-- Python truthiness of an optional string (`None` and `""` are falsy). -/
def pyTruthy : Option String → Bool
  | none => false
  | some s => s ≠ ""

/-- `_get_decoder`, at the level of the language code the returned
`Unidecoder` is bound to: `some m` models `Unidecoder(lang=m)`, `none`
models returning `None`.  (`None in self.langs_enabled` is false, since
the validated `langs_enabled` is a list of strings.) -/
def getDecoderLang (langsEnabled : List String) (hanPref : String)
    (lang script : Option String) : Option String :=
  match
    (if pyTruthy lang && (langMap hanPref (lang.getD "")).isSome then
      langMap hanPref (lang.getD "")
    else if pyTruthy script && (langMap hanPref (script.getD "")).isSome then
      langMap hanPref (script.getD "")
    else none) with
  | some m => if m ∈ langsEnabled then some m else none
  | none => none

theorem pyTruthy_none : pyTruthy none = false := rfl

/-- A Python attribute value: a string, or some non-string object
(tagged so that distinct non-string values stay distinguishable). -/
inductive PyVal where
  | str : List Char → PyVal
  | other : Nat → PyVal
  deriving DecidableEq

/-- A beets `TrackInfo` record: the recording id and the album-position
index are the attributes the plugin reads explicitly; `attrs` models
`hasattr`/`getattr` over the remaining attributes, and `written` logs the
attribute names passed to `setattr`, most recent first. -/
structure TrackInfo where
  track_id : Option String
  index : Option Nat
  attrs : String → Option PyVal
  written : List String

/-- A beets `AlbumInfo` record, with its release-level `language` and
`script` attributes and its ordered list of tracks. -/
structure AlbumInfo where
  language : Option String
  script : Option String
  tracks : List TrackInfo
  attrs : String → Option PyVal
  written : List String

/-- `setattr` on an attribute map plus write log. -/
def setAttr (a : String → Option PyVal) (w : List String) (k : String)
    (v : PyVal) : (String → Option PyVal) × List String :=
  (fun x => if x = k then some v else a x, k :: w)

/-- One iteration of the `_process_object` loop: skip an absent field,
skip a non-string value, sanitize a string value and write it back only
when it changed. -/
def processField (cfg : Config) (gc : Char → GC)
    (normalize : NormMode → List Char → List Char)
    (decoder : Option (List Char → List Char))
    (aw : (String → Option PyVal) × List String) (field : String) :
    (String → Option PyVal) × List String :=
  match aw.1 field with
  | some (.str v) =>
    let clean := processString cfg gc normalize decoder v
    if clean ≠ v then setAttr aw.1 aw.2 field (.str clean) else aw
  | some (.other _) => aw
  | none => aw

/-- `_process_object`, acting on a record's attribute map and write log:
fold `processField` over `process_fields` in order. -/
def processAttrs (cfg : Config) (gc : Char → GC)
    (normalize : NormMode → List Char → List Char)
    (decoder : Option (List Char → List Char))
    (a : String → Option PyVal) (w : List String) :
    (String → Option PyVal) × List String :=
  cfg.process_fields.foldl (processField cfg gc normalize decoder) (a, w)

/-- The join-phrase correlation table `self.track_join_phrases`. -/
def Table : Type := String → Option (List Char)

/-- Errors the embedded code can raise: `AttributeError` from calling
`.split` on a non-string, `ValueError` from `str.split("")`. -/
inductive PyError where
  | attributeError
  | valueError
  deriving DecidableEq

/-- Python `s.split(sep)[0]` for a nonempty separator: the prefix of `s`
before the first occurrence of `sep` (all of `s` when `sep` does not
occur).  Defined for `sep = []` as well, but the embedding guards that
case with `PyError.valueError` the way `str.split` does. -/
def splitHead (sep : List Char) : List Char → List Char
  | [] => []
  | c :: cs => if sep.isPrefixOf (c :: cs) then [] else c :: splitHead sep cs

/-- Does `sep` occur as a contiguous subsequence of `s`? -/
def occursIn (sep : List Char) : List Char → Bool
  | [] => sep.isEmpty
  | c :: cs => sep.isPrefixOf (c :: cs) || occursIn sep cs

/-- `dict.pop(key)`'s effect on the table. -/
def popTable (table : Table) (tid : String) : Table :=
  fun k => if k = tid then none else table k

/-- The body of the `_scrub_track_feats` field loop, threading the
possibility of an exception: absent fields are skipped (`continue`), a
string field is truncated at the join phrase and written back
unconditionally, a non-string field raises `AttributeError` on `.split`
(the source has no `isinstance` check here), and an empty join phrase
would raise `ValueError` inside `str.split`. -/
def scrubField (jp : List Char) (acc : Except PyError TrackInfo)
    (key : String) : Except PyError TrackInfo :=
  acc.bind fun info =>
    match info.attrs key with
    | none => .ok info
    | some (.str v) =>
      if jp = [] then .error .valueError
      else
        let aw := setAttr info.attrs info.written key (.str (splitHead jp v))
        .ok { info with attrs := aw.1, written := aw.2 }
    | some (.other _) => .error .attributeError

/-- `_scrub_track_feats`: look up the track's recording id in the
join-phrase table; on a hit, pop the entry and truncate each configured
field at the join phrase; on a miss (including `track_id = None`) do
nothing. -/
def scrubTrackFeats (dropFields : List String) (table : Table)
    (info : TrackInfo) : Except PyError (TrackInfo × Table) :=
  match info.track_id with
  | none => .ok (info, table)
  | some tid =>
    match table tid with
    | none => .ok (info, table)
    | some jp =>
      (dropFields.foldl (scrubField jp) (.ok info)).map
        fun i => (i, popTable table tid)

/-- An element of a raw MusicBrainz `artist-credit` sequence: either a
plain join-phrase string or a structured artist-credit entry (opaque). -/
inductive CreditElem where
  | str : List Char → CreditElem
  | entry : Nat → CreditElem
  deriving DecidableEq

/-- The raw pre-extraction payload for one recording: the `"id"` and
`"artist-credit"` keys may each be missing. -/
structure RawPayload where
  id : Option String
  artistCredit : Option (List CreditElem)

/-- `next(filter(lambda x: isinstance(x, str), seq))`: the first plain
string in the credit sequence, if any. -/
def firstStr : List CreditElem → Option (List Char)
  | [] => none
  | .str s :: _ => some s
  | .entry _ :: rest => firstStr rest

/-- `_mb_track_extract`: store the first plain string of the
artist-credit sequence under the payload's recording id.  A missing
`"artist-credit"` key (KeyError), an absence of string elements
(StopIteration), a falsy (empty) join phrase, or a missing `"id"` key
(KeyError) each leave the table unchanged. -/
def mbTrackExtract (table : Table) (data : RawPayload) : Table :=
  match data.artistCredit with
  | none => table
  | some seq =>
    match firstStr seq with
    | none => table
    | some jp =>
      if jp ≠ [] then
        match data.id with
        | some i => fun k => if k = i then some jp else table k
        | none => table
      else table

/-- The plugin's mutable state set up in `__init__`. -/
structure PluginState where
  pending_albums : String → Option Nat
  pending_tracks : String → Option TrackInfo
  track_join_phrases : Table

/-- `_trackinfo_received`: a track with a known album-position index is
deferred entirely; an index-less track with a truthy recording id is
stored in `pending_tracks`; nothing else changes and the record itself is
never written to. -/
def trackinfoReceived (st : PluginState) (info : TrackInfo) :
    PluginState × TrackInfo :=
  match info.index with
  | some _ => (st, info)
  | none =>
    match info.track_id with
    | some i =>
      if i ≠ "" then
        ({ st with pending_tracks := fun k =>
            if k = i then some info else st.pending_tracks k }, info)
      else (st, info)
    | none => (st, info)

/-- The track loop of `_albuminfo_received`: for each track in order,
scrub (only when `drop_feats_from_fields` is non-empty), then process the
track's fields; the join-phrase table threads through in track order and
exceptions propagate. -/
def albumLoop (cfg : Config) (gc : Char → GC)
    (normalize : NormMode → List Char → List Char)
    (decoder : Option (List Char → List Char)) :
    List TrackInfo → Table → Except PyError (List TrackInfo × Table)
  | [], table => .ok ([], table)
  | t :: ts, table => do
    let (t1, table1) ←
      if cfg.drop_feats_from_fields ≠ [] then
        scrubTrackFeats cfg.drop_feats_from_fields table t
      else .ok (t, table)
    let aw := processAttrs cfg gc normalize decoder t1.attrs t1.written
    let t2 := { t1 with attrs := aw.1, written := aw.2 }
    let (ts', table2) ← albumLoop cfg gc normalize decoder ts table1
    .ok (t2 :: ts', table2)

/-- `_albuminfo_received`: resolve one decoder from the release's own
language and script, run the track loop, then process the release record
itself.  `unidec m` models `Unidecoder(lang=m)`. -/
def albuminfoReceived (cfg : Config) (gc : Char → GC)
    (normalize : NormMode → List Char → List Char)
    (unidec : String → List Char → List Char)
    (table : Table) (info : AlbumInfo) :
    Except PyError (AlbumInfo × Table) := do
  let decoder := (getDecoderLang cfg.langs_enabled cfg.han_preference
      info.language info.script).map unidec
  let (tracks', table') ← albumLoop cfg gc normalize decoder info.tracks table
  let aw := processAttrs cfg gc normalize decoder info.attrs info.written
  .ok ({ info with tracks := tracks', attrs := aw.1, written := aw.2 }, table')

/-! ### Helper lemmas about `splitHead` and `occursIn` -/

theorem isPrefixOf_iff (sep s : List Char) :
    sep.isPrefixOf s = true ↔ ∃ r, s = sep ++ r := by
  induction sep generalizing s with
  | nil => simp [List.isPrefixOf]
  | cons a as ih =>
    cases s with
    | nil => simp [List.isPrefixOf]
    | cons b bs =>
      simp only [List.isPrefixOf, Bool.and_eq_true, beq_iff_eq, ih]
      constructor
      · rintro ⟨rfl, r, rfl⟩
        exact ⟨r, rfl⟩
      · rintro ⟨r, hr⟩
        injection hr with h1 h2
        exact ⟨h1.symm, r, h2⟩

theorem splitHead_of_not_occurs (sep s : List Char)
    (h : occursIn sep s = false) : splitHead sep s = s := by
  induction s with
  | nil => simp [splitHead]
  | cons c cs ih =>
    rw [occursIn, Bool.or_eq_false_iff] at h
    rw [splitHead, if_neg (by simp [h.1]), ih h.2]

theorem splitHead_append_of_occurs (sep s : List Char)
    (h : occursIn sep s = true) :
    ∃ r, s = splitHead sep s ++ sep ++ r := by
  induction s with
  | nil =>
    rw [occursIn, List.isEmpty_iff] at h
    exact ⟨[], by simp [h, splitHead]⟩
  | cons c cs ih =>
    rw [occursIn, Bool.or_eq_true] at h
    by_cases hp : sep.isPrefixOf (c :: cs) = true
    · obtain ⟨r, hr⟩ := (isPrefixOf_iff _ _).1 hp
      exact ⟨r, by rw [splitHead, if_pos hp]; simpa using hr⟩
    · obtain ⟨r, hr⟩ := ih (h.resolve_left hp)
      refine ⟨r, ?_⟩
      rw [splitHead, if_neg hp]
      simpa using hr

theorem splitHead_min (sep : List Char) (hne : sep ≠ []) :
    ∀ s t r, s = t ++ sep ++ r → (splitHead sep s).length ≤ t.length := by
  intro s
  induction s with
  | nil =>
    intro t r h
    simp [splitHead]
  | cons c cs ih =>
    intro t r h
    by_cases hp : sep.isPrefixOf (c :: cs) = true
    · rw [splitHead, if_pos hp]
      simp
    · match t with
      | [] =>
        exfalso
        apply hp
        rw [isPrefixOf_iff]
        exact ⟨r, by simpa using h⟩
      | a :: t' =>
        rw [splitHead, if_neg hp]
        have h' : cs = t' ++ sep ++ r := by
          have h2 := h
          simp only [List.cons_append, List.append_assoc] at h2
          injection h2 with _ h3
          simpa [List.append_assoc] using h3
        simpa using Nat.succ_le_succ (ih t' r h')

/-! ### Characterization of the scrub fold -/

/-- The value of an attribute after feature-phrase truncation. -/
def scrubbedVal (jp : List Char) : Option PyVal → Option PyVal
  | some (.str s) => some (.str (splitHead jp s))
  | x => x

theorem scrubFold_spec (jp : List Char) (hjp : jp ≠ []) :
    ∀ df : List String, df.Nodup →
      ∀ info : TrackInfo,
        (∀ k ∈ df, ∀ n, info.attrs k ≠ some (.other n)) →
        df.foldl (scrubField jp) (.ok info) =
          .ok { info with
            attrs := fun k =>
              if k ∈ df then scrubbedVal jp (info.attrs k) else info.attrs k,
            written :=
              (df.filter fun k => (info.attrs k).isSome).reverse ++
                info.written } := by
  intro df
  induction df with
  | nil =>
    intro _ info _
    simp
  | cons f rest ih =>
    intro hnd info hstr
    have hfrest : f ∉ rest := (List.nodup_cons.1 hnd).1
    have hndr : rest.Nodup := (List.nodup_cons.1 hnd).2
    rw [List.foldl_cons]
    cases hv : info.attrs f with
    | none =>
      have hstep : scrubField jp (.ok info) f = .ok info := by
        simp [scrubField, Except.bind, hv]
      rw [hstep, ih hndr info fun k hk => hstr k (List.mem_cons_of_mem f hk)]
      congr 1
      simp only [TrackInfo.mk.injEq, true_and]
      refine ⟨?_, ?_⟩
      · funext k
        by_cases hkf : k = f
        · subst hkf
          simp [hfrest, hv, scrubbedVal]
        · simp [hkf]
      · rw [List.filter_cons]
        simp [hv]
    | some val =>
      cases val with
      | other n => exact absurd hv (hstr f (List.mem_cons_self f rest) n)
      | str v =>
        have hstep : scrubField jp (.ok info) f =
            .ok { info with
              attrs := fun x =>
                if x = f then some (.str (splitHead jp v)) else info.attrs x,
              written := f :: info.written } := by
          simp [scrubField, Except.bind, hv, hjp, setAttr]
        rw [hstep]
        set info' : TrackInfo :=
          { info with
            attrs := fun x =>
              if x = f then some (.str (splitHead jp v)) else info.attrs x,
            written := f :: info.written } with hinfo'
        have hattr' : ∀ k, k ≠ f → info'.attrs k = info.attrs k := by
          intro k hk
          simp [hinfo', hk]
        rw [ih hndr info' (by
          intro k hk n
          rw [hattr' k (fun he => hfrest (he ▸ hk))]
          exact hstr k (List.mem_cons_of_mem f hk) n)]
      -- reshape the result to speak about the original `info`
        congr 1
        simp only [TrackInfo.mk.injEq, hinfo', true_and]
        refine ⟨?_, ?_⟩
        · funext k
          by_cases hkr : k ∈ rest
          · have hkf : k ≠ f := fun he => hfrest (he ▸ hkr)
            simp only [if_pos hkr, hattr' k hkf]
            simp [hkr, hkf]
          · by_cases hkf : k = f
            · subst hkf
              simp [hkr, hinfo', hv, scrubbedVal]
            · simp [hkr, hkf, hattr' k hkf]
        · have hfil :
              (rest.filter fun k => (info'.attrs k).isSome) =
                rest.filter fun k => (info.attrs k).isSome := by
            apply List.filter_congr
            intro k hk
            rw [hattr' k (fun he => hfrest (he ▸ hk))]
          rw [hfil, List.filter_cons]
          simp [hv, hinfo']

/-- `_scrub_track_feats` on a track whose recording id has a captured
(nonempty) join phrase, with distinct configured fields none of which
holds a non-string value: the entry is popped and every present
configured field is truncated and written back. -/
theorem scrubTrackFeats_spec (df : List String) (hnd : df.Nodup)
    (table : Table) (info : TrackInfo) (tid : String) (jp : List Char)
    (htid : info.track_id = some tid) (hjp : table tid = some jp)
    (hne : jp ≠ [])
    (hstr : ∀ k ∈ df, ∀ n, info.attrs k ≠ some (.other n)) :
    scrubTrackFeats df table info =
      .ok ({ info with
        attrs := fun k =>
          if k ∈ df then scrubbedVal jp (info.attrs k) else info.attrs k,
        written :=
          (df.filter fun k => (info.attrs k).isSome).reverse ++
            info.written }, popTable table tid) := by
  simp only [scrubTrackFeats, htid, hjp]
  rw [scrubFold_spec jp hne df hnd info hstr]
  simp [Except.map, htid]

/-! ### Characterization of the field-processing fold -/

/-- The value of an attribute after field processing: string values are
sanitized, everything else is untouched. -/
def processedVal (cfg : Config) (gc : Char → GC)
    (normalize : NormMode → List Char → List Char)
    (decoder : Option (List Char → List Char)) : Option PyVal → Option PyVal
  | some (.str v) => some (.str (processString cfg gc normalize decoder v))
  | x => x

/-- Does processing change this attribute (so that `setattr` runs)? -/
def fieldChanged (cfg : Config) (gc : Char → GC)
    (normalize : NormMode → List Char → List Char)
    (decoder : Option (List Char → List Char))
    (a : String → Option PyVal) (k : String) : Bool :=
  match a k with
  | some (.str v) => processString cfg gc normalize decoder v ≠ v
  | _ => false

theorem processFold_spec (cfg : Config) (gc : Char → GC)
    (nrm : NormMode → List Char → List Char)
    (dec : Option (List Char → List Char)) :
    ∀ fs : List String, fs.Nodup →
      ∀ (a : String → Option PyVal) (w : List String),
        fs.foldl (processField cfg gc nrm dec) (a, w) =
          (fun k => if k ∈ fs then processedVal cfg gc nrm dec (a k) else a k,
            (fs.filter (fieldChanged cfg gc nrm dec a)).reverse ++ w) := by
  intro fs
  induction fs with
  | nil =>
    intro _ a w
    simp
  | cons f rest ih =>
    intro hnd a w
    have hfrest : f ∉ rest := (List.nodup_cons.1 hnd).1
    have hndr : rest.Nodup := (List.nodup_cons.1 hnd).2
    rw [List.foldl_cons]
    cases hv : a f with
    | none =>
      have hstep : processField cfg gc nrm dec (a, w) f = (a, w) := by
        simp [processField, hv]
      rw [hstep, ih hndr a w]
      have hch : fieldChanged cfg gc nrm dec a f = false := by
        simp [fieldChanged, hv]
      refine Prod.ext ?_ ?_
      · funext k
        by_cases hkf : k = f
        · subst hkf
          simp [hfrest, hv, processedVal]
        · simp [hkf]
      · simp [List.filter_cons, hch]
    | some val =>
      cases val with
      | other n =>
        have hstep : processField cfg gc nrm dec (a, w) f = (a, w) := by
          simp [processField, hv]
        rw [hstep, ih hndr a w]
        have hch : fieldChanged cfg gc nrm dec a f = false := by
          simp [fieldChanged, hv]
        refine Prod.ext ?_ ?_
        · funext k
          by_cases hkf : k = f
          · subst hkf
            simp [hfrest, hv, processedVal]
          · simp [hkf]
        · simp [List.filter_cons, hch]
      | str v =>
        by_cases hcv : processString cfg gc nrm dec v = v
        · have hstep : processField cfg gc nrm dec (a, w) f = (a, w) := by
            simp [processField, hv, hcv]
          rw [hstep, ih hndr a w]
          have hch : fieldChanged cfg gc nrm dec a f = false := by
            simp [fieldChanged, hv, hcv]
          refine Prod.ext ?_ ?_
          · funext k
            by_cases hkf : k = f
            · subst hkf
              simp [hfrest, hv, processedVal, hcv]
            · simp [hkf]
          · simp [List.filter_cons, hch]
        · have hstep : processField cfg gc nrm dec (a, w) f =
              (fun x =>
                if x = f then some (.str (processString cfg gc nrm dec v))
                else a x, f :: w) := by
            simp [processField, hv, hcv, setAttr]
          rw [hstep]
          set a' : String → Option PyVal := fun x =>
            if x = f then some (.str (processString cfg gc nrm dec v))
            else a x with ha'
          have hother : ∀ k, k ≠ f → a' k = a k := by
            intro k hk
            simp [ha', hk]
          rw [ih hndr a' (f :: w)]
          have hch : fieldChanged cfg gc nrm dec a f = true := by
            simp [fieldChanged, hv, hcv]
          refine Prod.ext ?_ ?_
          · funext k
            by_cases hkr : k ∈ rest
            · have hkf : k ≠ f := fun he => hfrest (he ▸ hkr)
              simp only [if_pos hkr, hother k hkf]
              simp [hkr, hkf]
            · by_cases hkf : k = f
              · subst hkf
                simp [hkr, ha', hv, processedVal]
              · simp [hkr, hkf, hother k hkf]
          · have hfil :
                rest.filter (fieldChanged cfg gc nrm dec a') =
                  rest.filter (fieldChanged cfg gc nrm dec a) := by
              apply List.filter_congr
              intro k hk
              unfold fieldChanged
              rw [hother k (fun he => hfrest (he ▸ hk))]
            simp [hfil, List.filter_cons, hch]

/-- `_process_object` on a record's attributes, for a duplicate-free
configured field list: string-valued configured fields are replaced by
their sanitized value, everything else is untouched, and exactly the
fields whose sanitized value differs are written. -/
theorem processAttrs_spec (cfg : Config) (gc : Char → GC)
    (nrm : NormMode → List Char → List Char)
    (dec : Option (List Char → List Char))
    (hnd : cfg.process_fields.Nodup)
    (a : String → Option PyVal) (w : List String) :
    processAttrs cfg gc nrm dec a w =
      (fun k =>
          if k ∈ cfg.process_fields then processedVal cfg gc nrm dec (a k)
          else a k,
        (cfg.process_fields.filter (fieldChanged cfg gc nrm dec a)).reverse
          ++ w) :=
  processFold_spec cfg gc nrm dec cfg.process_fields hnd a w

/-! ### Error propagation through the scrub fold -/

theorem scrubFold_err_prop (jp : List Char) (e : PyError) :
    ∀ df : List String, df.foldl (scrubField jp) (.error e) = .error e := by
  intro df
  induction df with
  | nil => rfl
  | cons f rest ih =>
    rw [List.foldl_cons]
    have : scrubField jp (.error e) f = .error e := rfl
    rw [this, ih]

theorem scrubFold_error (jp : List Char) (hjp : jp ≠ []) :
    ∀ df : List String, ∀ info : TrackInfo,
      (∃ k ∈ df, ∃ n, info.attrs k = some (.other n)) →
      ∃ e, df.foldl (scrubField jp) (.ok info) = .error e := by
  intro df
  induction df with
  | nil =>
    rintro info ⟨k, hk, _⟩
    simp at hk
  | cons f rest ih =>
    rintro info ⟨k, hk, n, hval⟩
    rw [List.foldl_cons]
    cases hv : info.attrs f with
    | none =>
      have hstep : scrubField jp (.ok info) f = .ok info := by
        simp [scrubField, Except.bind, hv]
      rw [hstep]
      have hkf : k ≠ f := fun he => by rw [he, hv] at hval; exact Option.noConfusion hval
      have hkr : k ∈ rest := by
        rcases List.mem_cons.1 hk with h | h
        · exact absurd h hkf
        · exact h
      exact ih info ⟨k, hkr, n, hval⟩
    | some val =>
      cases val with
      | other m =>
        have hstep : scrubField jp (.ok info) f = .error .attributeError := by
          simp [scrubField, Except.bind, hv]
        rw [hstep, scrubFold_err_prop]
        exact ⟨.attributeError, rfl⟩
      | str v =>
        have hstep : scrubField jp (.ok info) f =
            .ok { info with
              attrs := fun x =>
                if x = f then some (.str (splitHead jp v)) else info.attrs x,
              written := f :: info.written } := by
          simp [scrubField, Except.bind, hv, hjp, setAttr]
        rw [hstep]
        have hkf : k ≠ f := fun he => by
          rw [he, hv] at hval
          exact PyVal.noConfusion (Option.some.inj hval)
        have hkr : k ∈ rest := by
          rcases List.mem_cons.1 hk with h | h
          · exact absurd h hkf
          · exact h
        exact ih _ ⟨k, hkr, n, by simpa [hkf] using hval⟩

/-! ### Concrete demonstration values used by witnesses -/

/-- A concrete category table that agrees with the real Unicode general
categories on every code point the concrete examples below exercise. -/
def gcDemo (c : Char) : GC :=
  if c = ' ' ∨ c = chr 0x1680 then .Zs
  else if c = '-' ∨ c = chr 0x2e1a then .Pd
  else if c = '(' ∨ c = chr 0xff08 then .Ps
  else if c = ')' ∨ c = chr 0xff09 then .Pe
  else if c = chr 0xab ∨ c = chr 0x2018 ∨ c = chr 0x201c then .Pi
  else if c = chr 0xbb ∨ c = chr 0x2019 ∨ c = chr 0x201d then .Pf
  else if c = chr 0x27 ∨ c = chr 0x22 ∨ c = ',' ∨ c = '.' ∨ c = '!' then .Po
  else if 'a' ≤ c ∧ c ≤ 'z' then .Ll
  else if 'A' ≤ c ∧ c ≤ 'Z' then .Lu
  else if '0' ≤ c ∧ c ≤ '9' then .Nd
  else .Cn

/-- A normalization function for instantiating the opaque
`unicodedata.normalize` parameter in concrete examples. -/
def nrmId : NormMode → List Char → List Char := fun _ s => s

/-- The join phrase used by the concrete examples. -/
def featJp : List Char := " feat. ".toList

/-- A concrete join-phrase table holding an entry for recording "t1". -/
def tbl1 : Table := fun k => if k = "t1" then some featJp else none

/-- Concrete attributes: a string artist and title. -/
def attrs1 : String → Option PyVal := fun k =>
  if k = "artist" then some (.str "foo feat. bar".toList)
  else if k = "title" then some (.str "foo bar".toList)
  else none

/-- A concrete track for recording "t1". -/
def trk1 : TrackInfo :=
  { track_id := some "t1", index := none, attrs := attrs1, written := [] }

/-- A concrete track whose artist attribute holds a non-string value. -/
def trkBad : TrackInfo :=
  { track_id := some "t1", index := none,
    attrs := fun k => if k = "artist" then some (.other 0) else none,
    written := [] }

/-! ### Claim C1 -/

/-- Claim C1: for every track whose recording identifier has a captured
(hence nonempty) join phrase `jp` in the join-phrase table, `scrub`
replaces each configured field present on the track by the prefix of the
field's value before the first occurrence of `jp` (witnessed by a
decomposition `v = w ++ jp ++ r` with `w` of minimal length), and for
every field value in which `jp` does not occur the field is left equal to
its old value.  Configured fields form a set (duplicate-free list) and
hold string values. -/
theorem scrub_truncates_before_first_join_phrase
    (df : List String) (hnd : df.Nodup) (table : Table) (info : TrackInfo)
    (tid : String) (jp : List Char)
    (htid : info.track_id = some tid) (hjp : table tid = some jp)
    (hne : jp ≠ [])
    (hstr : ∀ k ∈ df, ∀ n, info.attrs k ≠ some (.other n)) :
    ∃ info', scrubTrackFeats df table info = .ok (info', popTable table tid) ∧
      ∀ k ∈ df, ∀ v, info.attrs k = some (.str v) →
        ∃ w, info'.attrs k = some (.str w) ∧
          (occursIn jp v = true →
            (∃ r, v = w ++ jp ++ r) ∧
              ∀ t r, v = t ++ jp ++ r → w.length ≤ t.length) ∧
          (occursIn jp v = false → w = v) := by
  refine ⟨_, scrubTrackFeats_spec df hnd table info tid jp htid hjp hne hstr,
    ?_⟩
  intro k hk v hv
  refine ⟨splitHead jp v, ?_, ?_, ?_⟩
  · simp [hk, hv, scrubbedVal]
  · intro hocc
    refine ⟨?_, fun t r h => splitHead_min jp hne v t r h⟩
    obtain ⟨r, hr⟩ := splitHead_append_of_occurs jp v hocc
    exact ⟨r, hr⟩
  · intro hnocc
    exact splitHead_of_not_occurs jp v hnocc

/-- Witness for C1 at a concrete input: the artist field `"foo feat. bar"`
is truncated before the first `" feat. "`, and the title field, in which
the join phrase does not occur, keeps its value `"foo bar"`. -/
theorem scrub_truncates_before_first_join_phrase_witness :
    trk1.track_id = some "t1" ∧ tbl1 "t1" = some featJp ∧
    (∃ info',
      scrubTrackFeats ["artist", "title"] tbl1 trk1 =
        .ok (info', popTable tbl1 "t1") ∧
      ∀ k ∈ ["artist", "title"], ∀ v, trk1.attrs k = some (.str v) →
        ∃ w, info'.attrs k = some (.str w) ∧
          (occursIn featJp v = true →
            (∃ r, v = w ++ featJp ++ r) ∧
              ∀ t r, v = t ++ featJp ++ r → w.length ≤ t.length) ∧
          (occursIn featJp v = false → w = v)) :=
  ⟨rfl, rfl,
    scrub_truncates_before_first_join_phrase ["artist", "title"]
      (by decide) tbl1 trk1 "t1" featJp rfl rfl (by decide)
      (by
        intro k hk n
        fin_cases hk <;> simp [trk1, attrs1])⟩

/-! ### Claim C2 -/

/-- Claim C2: the join-phrase table keeps at most one entry per recording
identifier.  (1) A capture whose payload carries identifier `i` and a
nonempty first join-phrase string `jp` maps `i` to `jp` no matter what the
table previously held for `i` — so a second capture for the same
identifier overwrites the first (last-write-wins).  (2) The first scrub
for an identifier with an entry pops that entry: afterwards the table
holds nothing for `tid`.  (3) A second scrub for the same identifier is a
no-op: it returns the track and table unchanged. -/
theorem join_phrase_table_lifecycle :
    (∀ (table : Table) (i : String) (seq : List CreditElem) (jp : List Char),
        firstStr seq = some jp → jp ≠ [] →
        mbTrackExtract table ⟨some i, some seq⟩ i = some jp) ∧
    (∀ df : List String, df.Nodup →
      ∀ (table : Table) (info : TrackInfo) (tid : String) (jp : List Char),
        info.track_id = some tid → table tid = some jp → jp ≠ [] →
        (∀ k ∈ df, ∀ n, info.attrs k ≠ some (.other n)) →
        ∃ info',
          scrubTrackFeats df table info = .ok (info', popTable table tid) ∧
          popTable table tid tid = none ∧
          scrubTrackFeats df (popTable table tid) info' =
            .ok (info', popTable table tid)) := by
  constructor
  · intro table i seq jp hfs hne
    simp [mbTrackExtract, hfs, hne]
  · intro df hnd table info tid jp htid hjp hne hstr
    refine ⟨_, scrubTrackFeats_spec df hnd table info tid jp htid hjp hne hstr,
      by simp [popTable], ?_⟩
    simp [scrubTrackFeats, htid, popTable]

/-- Witness for C2 at concrete inputs: capturing `" ft. "` for "t1"
overwrites the phrase `" feat. "` already held by `tbl1`; scrubbing `trk1`
pops the entry and a second scrub leaves everything unchanged. -/
theorem join_phrase_table_lifecycle_witness :
    (mbTrackExtract tbl1 ⟨some "t1", some [.entry 0, .str " ft. ".toList]⟩
        "t1" = some " ft. ".toList) ∧
    (∃ info',
      scrubTrackFeats ["artist"] tbl1 trk1 = .ok (info', popTable tbl1 "t1") ∧
      popTable tbl1 "t1" "t1" = none ∧
      scrubTrackFeats ["artist"] (popTable tbl1 "t1") info' =
        .ok (info', popTable tbl1 "t1")) :=
  ⟨join_phrase_table_lifecycle.1 tbl1 "t1" [.entry 0, .str " ft. ".toList]
      " ft. ".toList rfl (by decide),
    join_phrase_table_lifecycle.2 ["artist"] (by decide) tbl1 trk1 "t1"
      featJp rfl rfl (by decide)
      (by
        intro k hk n
        fin_cases hk
        simp [trk1, attrs1])⟩

/-! ### Claim C6 -/

/-- Claim C6, counterexample: the claim says a field holding a non-string
value is silently skipped and never causes an error during feature-phrase
scrubbing, but scrubbing a track whose configured field "artist" holds a
non-string value, with a captured join phrase for its recording id,
raises `AttributeError` (the source's `_scrub_track_feats` calls
`val.split` without an `isinstance(val, str)` check). -/
theorem scrub_nonstring_field_raises :
    scrubTrackFeats ["artist"] tbl1 trkBad = .error .attributeError := by
  rfl

/-- Claim C6 as amended: during field sanitization a configured field that
is absent or holds a non-string value is skipped (the processing is total
and leaves the attribute unchanged); during feature-phrase scrubbing an
absent configured field is skipped, but a present non-string configured
field is not skipped — the truncation raises an error. -/
theorem absent_fields_skipped_nonstring_only_in_sanitize
    (cfg : Config) (gc : Char → GC)
    (nrm : NormMode → List Char → List Char)
    (dec : Option (List Char → List Char))
    (hnd : cfg.process_fields.Nodup)
    (a : String → Option PyVal) (w : List String) :
    (∀ k, a k = none → (processAttrs cfg gc nrm dec a w).1 k = none) ∧
    (∀ k n, a k = some (.other n) →
      (processAttrs cfg gc nrm dec a w).1 k = some (.other n)) ∧
    (∀ df : List String, df.Nodup →
      ∀ (table : Table) (info : TrackInfo) (tid : String) (jp : List Char),
        info.track_id = some tid → table tid = some jp → jp ≠ [] →
        (∀ k ∈ df, ∀ n, info.attrs k ≠ some (.other n)) →
        ∃ info',
          scrubTrackFeats df table info = .ok (info', popTable table tid) ∧
          ∀ k, info.attrs k = none → info'.attrs k = none) ∧
    (∀ df : List String,
      ∀ (table : Table) (info : TrackInfo) (tid : String) (jp : List Char),
        info.track_id = some tid → table tid = some jp → jp ≠ [] →
        (∃ k ∈ df, ∃ n, info.attrs k = some (.other n)) →
        ∃ e, scrubTrackFeats df table info = .error e) := by
  refine ⟨?_, ?_, ?_, ?_⟩
  · intro k hk
    rw [processAttrs_spec cfg gc nrm dec hnd a w]
    by_cases hmem : k ∈ cfg.process_fields <;> simp [hmem, hk, processedVal]
  · intro k n hk
    rw [processAttrs_spec cfg gc nrm dec hnd a w]
    by_cases hmem : k ∈ cfg.process_fields <;> simp [hmem, hk, processedVal]
  · intro df hnd' table info tid jp htid hjp hne hstr
    refine ⟨_,
      scrubTrackFeats_spec df hnd' table info tid jp htid hjp hne hstr, ?_⟩
    intro k hk
    by_cases hmem : k ∈ df <;> simp [hmem, hk, scrubbedVal]
  · intro df table info tid jp htid hjp hne hbad
    obtain ⟨e, he⟩ := scrubFold_error jp hne df info hbad
    refine ⟨e, ?_⟩
    simp [scrubTrackFeats, htid, hjp, he, Except.map]

/-- Witness for the amended C6 at concrete inputs: the field "missing" is
absent on `trk1` and stays absent through both sanitization and
scrubbing, while scrubbing `trkBad` (whose "artist" is a non-string)
yields an error. -/
theorem absent_fields_skipped_nonstring_only_in_sanitize_witness :
    ((processAttrs
        { langs_enabled := [], tidy_unihandecode := false,
          drop_feats_from_fields := [], simplify_whitespace := false,
          simplify_hyphens := false, simplify_curly_quotes := false,
          simplify_brackets := false, left_bracket := ['('],
          right_bracket := [')'], unicode_normalization_mode := none,
          process_fields := ["missing"], han_preference := "zh" }
        gcDemo nrmId none attrs1 []).1 "missing" = none) ∧
    (∃ info',
      scrubTrackFeats ["artist"] tbl1 trk1 = .ok (info', popTable tbl1 "t1") ∧
      ∀ k, trk1.attrs k = none → info'.attrs k = none) ∧
    (∃ e, scrubTrackFeats ["artist"] tbl1 trkBad = .error e) := by
  have h := absent_fields_skipped_nonstring_only_in_sanitize
    { langs_enabled := [], tidy_unihandecode := false,
      drop_feats_from_fields := [], simplify_whitespace := false,
      simplify_hyphens := false, simplify_curly_quotes := false,
      simplify_brackets := false, left_bracket := ['('],
      right_bracket := [')'], unicode_normalization_mode := none,
      process_fields := ["missing"], han_preference := "zh" }
    gcDemo nrmId none (by decide) attrs1 []
  refine ⟨h.1 "missing" (by decide), ?_, ?_⟩
  · exact h.2.2.1 ["artist"] (by decide) tbl1 trk1 "t1" featJp rfl rfl
      (by decide)
      (by
        intro k hk n
        fin_cases hk
        simp [trk1, attrs1])
  · exact h.2.2.2 ["artist"] tbl1 trkBad "t1" featJp rfl rfl (by decide)
      ⟨"artist", by decide, 0, by simp [trkBad]⟩

/-! ### Claim C9 -/

/-- Claim C9: for every record processed by the field processor (with a
duplicate-free configured field list), a configured field is written back
exactly when its sanitized value differs from its current value (the
write log extends by exactly the changed fields), and every attribute
other than the configured, present, string-valued fields keeps its value. -/
theorem process_object_writes_only_changed_fields
    (cfg : Config) (gc : Char → GC)
    (nrm : NormMode → List Char → List Char)
    (dec : Option (List Char → List Char))
    (hnd : cfg.process_fields.Nodup)
    (a : String → Option PyVal) (w : List String) :
    (∀ k, k ∉ cfg.process_fields →
      (processAttrs cfg gc nrm dec a w).1 k = a k) ∧
    (∀ k, a k = none → (processAttrs cfg gc nrm dec a w).1 k = a k) ∧
    (∀ k n, a k = some (.other n) →
      (processAttrs cfg gc nrm dec a w).1 k = a k) ∧
    (∀ k ∈ cfg.process_fields, ∀ v, a k = some (.str v) →
      (processAttrs cfg gc nrm dec a w).1 k =
        some (.str (processString cfg gc nrm dec v))) ∧
    (processAttrs cfg gc nrm dec a w).2 =
      (cfg.process_fields.filter (fieldChanged cfg gc nrm dec a)).reverse
        ++ w := by
  rw [processAttrs_spec cfg gc nrm dec hnd a w]
  refine ⟨?_, ?_, ?_, ?_, rfl⟩
  · intro k hk
    simp [hk]
  · intro k hk
    by_cases hmem : k ∈ cfg.process_fields <;> simp [hmem, hk, processedVal]
  · intro k n hk
    by_cases hmem : k ∈ cfg.process_fields <;> simp [hmem, hk, processedVal]
  · intro k hk v hv
    simp [hk, hv, processedVal]

/-- Witness for C9 at concrete inputs: with hyphen simplification enabled,
the field "artist" (value `"foo feat. bar"`, unchanged by sanitization) is
not written, the absent field "missing" stays absent, and the write log
records exactly the changed fields. -/
theorem process_object_writes_only_changed_fields_witness :
    ((processAttrs
        { langs_enabled := [], tidy_unihandecode := false,
          drop_feats_from_fields := [], simplify_whitespace := true,
          simplify_hyphens := true, simplify_curly_quotes := true,
          simplify_brackets := true, left_bracket := ['('],
          right_bracket := [')'], unicode_normalization_mode := none,
          process_fields := ["artist", "missing"], han_preference := "zh" }
        gcDemo nrmId none attrs1 []).1 "missing" = attrs1 "missing") ∧
    ((processAttrs
        { langs_enabled := [], tidy_unihandecode := false,
          drop_feats_from_fields := [], simplify_whitespace := true,
          simplify_hyphens := true, simplify_curly_quotes := true,
          simplify_brackets := true, left_bracket := ['('],
          right_bracket := [')'], unicode_normalization_mode := none,
          process_fields := ["artist", "missing"], han_preference := "zh" }
        gcDemo nrmId none attrs1 []).2 = []) := by
  have h := process_object_writes_only_changed_fields
    { langs_enabled := [], tidy_unihandecode := false,
      drop_feats_from_fields := [], simplify_whitespace := true,
      simplify_hyphens := true, simplify_curly_quotes := true,
      simplify_brackets := true, left_bracket := ['('],
      right_bracket := [')'], unicode_normalization_mode := none,
      process_fields := ["artist", "missing"], han_preference := "zh" }
    gcDemo nrmId none (by decide) attrs1 []
  refine ⟨h.2.1 "missing" rfl, ?_⟩
  rw [h.2.2.2.2]
  decide

/-! ### Claim C3 -/

/-- Claim C3: the resolver tries the language code first (a truthy, mapped
language determines the outcome regardless of the script); when the
language is absent, empty, or unmapped, resolution proceeds exactly as if
only the script were given; the ambiguous script "Hani" resolves to the
configured Han preference (yielding it when enabled and nothing when
not); and when neither input resolves, no decoder is produced — never an
error (the function is total).  In every case a mapped target outside the
enabled set yields no decoder. -/
theorem resolver_language_then_script_then_none :
    (∀ (le : List String) (hp l : String) (script : Option String)
        (m : String), l ≠ "" → langMap hp l = some m →
        getDecoderLang le hp (some l) script =
          if m ∈ le then some m else none) ∧
    (∀ (le : List String) (hp : String) (lang script : Option String),
        pyTruthy lang = false ∨ langMap hp (lang.getD "") = none →
        getDecoderLang le hp lang script = getDecoderLang le hp none script) ∧
    (∀ (le : List String) (hp : String),
        getDecoderLang le hp none (some "Hani") =
          if hp ∈ le then some hp else none) ∧
    (∀ (le : List String) (hp : String) (lang script : Option String),
        pyTruthy lang = false ∨ langMap hp (lang.getD "") = none →
        pyTruthy script = false ∨ langMap hp (script.getD "") = none →
        getDecoderLang le hp lang script = none) := by
  refine ⟨?_, ?_, ?_, ?_⟩
  · intro le hp l script m hl hm
    simp [getDecoderLang, pyTruthy, hl, hm]
  · intro le hp lang script h
    cases lang with
    | none => rfl
    | some l =>
      rcases h with h | h
      · simp [getDecoderLang, h, pyTruthy_none]
      · simp only [Option.getD_some] at h
        simp [getDecoderLang, h, pyTruthy_none]
  · intro le hp
    simp [getDecoderLang, pyTruthy, langMap, langMapList, List.find?]
  · intro le hp lang script h1 h2
    cases lang with
    | none =>
      cases script with
      | none => rfl
      | some sc =>
        rcases h2 with h2 | h2
        · simp [getDecoderLang, h2, pyTruthy_none]
        · simp only [Option.getD_some] at h2
          simp [getDecoderLang, h2, pyTruthy_none]
    | some l =>
      have hl : pyTruthy (some l) = false ∨ langMap hp l = none := by
        rcases h1 with h1 | h1
        · exact Or.inl h1
        · exact Or.inr (by simpa using h1)
      cases script with
      | none =>
        rcases hl with hl | hl <;> simp [getDecoderLang, hl, pyTruthy_none]
      | some sc =>
        have hs : pyTruthy (some sc) = false ∨ langMap hp sc = none := by
          rcases h2 with h2 | h2
          · exact Or.inl h2
          · exact Or.inr (by simpa using h2)
        rcases hl with hl | hl <;> rcases hs with hs | hs <;>
          simp [getDecoderLang, hl, hs]

/-- Witness for C3 at concrete inputs: language "jpn" maps to "ja" and
wins over the script; "Hani" resolves to preference "kr" when "kr" is
enabled and to nothing when only "ja" is enabled; unrecognized inputs
resolve to nothing. -/
theorem resolver_language_then_script_then_none_witness :
    getDecoderLang ["ja", "kr", "vn", "zh"] "zh" (some "jpn") (some "Hani") =
        some "ja" ∧
    getDecoderLang ["kr"] "kr" none (some "Hani") = some "kr" ∧
    getDecoderLang ["ja"] "kr" none (some "Hani") = none ∧
    getDecoderLang ["ja", "kr", "vn", "zh"] "zh" (some "xx") (some "yy") =
        none := by
  have h := resolver_language_then_script_then_none
  refine ⟨?_, ?_, ?_, ?_⟩
  · rw [h.1 ["ja", "kr", "vn", "zh"] "zh" "jpn" (some "Hani") "ja"
      (by decide) (by decide)]
    decide
  · rw [h.2.2.1 ["kr"] "kr"]
    decide
  · rw [h.2.2.1 ["ja"] "kr"]
    decide
  · exact h.2.2.2 ["ja", "kr", "vn", "zh"] "zh" (some "xx") (some "yy")
      (Or.inr (by decide)) (Or.inr (by decide))

/-! ### Claim C4 -/

/-- Claim C4: for every input text, when every cleanup toggle is disabled,
no transliteration capability is supplied, and the normalization mode is
"none", sanitize equals trim: the final strip still runs and nothing else
changes the text. -/
theorem sanitize_noop_settings_is_trim (cfg : Config) (gc : Char → GC)
    (nrm : NormMode → List Char → List Char) (T : List Char)
    (hws : cfg.simplify_whitespace = false)
    (hhy : cfg.simplify_hyphens = false)
    (hq : cfg.simplify_curly_quotes = false)
    (hbr : cfg.simplify_brackets = false)
    (hnm : cfg.unicode_normalization_mode = none) :
    processString cfg gc nrm none T = pyStrip gc T := by
  simp [processString, hws, hhy, hq, hbr, hnm]

/-- Witness for C4 at a concrete input: with all toggles disabled the
pipeline only trims `"  hi "` to `"hi"`. -/
theorem sanitize_noop_settings_is_trim_witness :
    processString
        { langs_enabled := [], tidy_unihandecode := false,
          drop_feats_from_fields := [], simplify_whitespace := false,
          simplify_hyphens := false, simplify_curly_quotes := false,
          simplify_brackets := false, left_bracket := ['('],
          right_bracket := [')'], unicode_normalization_mode := none,
          process_fields := [], han_preference := "zh" }
        gcDemo nrmId none "  hi ".toList = pyStrip gcDemo "  hi ".toList ∧
    pyStrip gcDemo "  hi ".toList = "hi".toList := by
  refine ⟨sanitize_noop_settings_is_trim _ gcDemo nrmId "  hi ".toList
    rfl rfl rfl rfl rfl, ?_⟩
  decide

/-! ### Claim C7 -/

/-- Claim C7, counterexample: a payload carrying identifier "t1" whose
artist-credit sequence's first plain-string element exists (the empty
string): the claim says capture stores it keyed by "t1", but the code
leaves the table unchanged — the `if join_phrase:` truthiness test
rejects the empty string. -/
theorem capture_empty_first_string_not_stored :
    firstStr [CreditElem.str []] = some [] ∧
    mbTrackExtract (fun _ => none)
        ⟨some "t1", some [CreditElem.str []]⟩ "t1" = none :=
  ⟨rfl, rfl⟩

/-- Claim C7 as amended: capture locates the first plain-string element of
the artist-credit sequence and, when that element is nonempty and the
payload carries a recording identifier, stores it keyed by that
identifier; when the payload lacks the artist-credit key or the
identifier, or the sequence has no plain-string element, or the first
plain-string element is empty, capture leaves the table unchanged and
raises no error. -/
theorem capture_stores_first_nonempty_string (table : Table)
    (data : RawPayload) :
    (∀ seq jp i, data.artistCredit = some seq → firstStr seq = some jp →
        jp ≠ [] → data.id = some i →
        mbTrackExtract table data =
          fun k => if k = i then some jp else table k) ∧
    (data.artistCredit = none → mbTrackExtract table data = table) ∧
    (∀ seq, data.artistCredit = some seq → firstStr seq = none →
        mbTrackExtract table data = table) ∧
    (∀ seq, data.artistCredit = some seq → firstStr seq = some [] →
        mbTrackExtract table data = table) ∧
    (∀ seq jp, data.artistCredit = some seq → firstStr seq = some jp →
        data.id = none → mbTrackExtract table data = table) := by
  refine ⟨?_, ?_, ?_, ?_, ?_⟩
  · intro seq jp i hcred hfs hne hid
    simp [mbTrackExtract, hcred, hfs, hne, hid]
  · intro hcred
    simp [mbTrackExtract, hcred]
  · intro seq hcred hfs
    simp [mbTrackExtract, hcred, hfs]
  · intro seq hcred hfs
    simp [mbTrackExtract, hcred, hfs]
  · intro seq jp hcred hfs hid
    by_cases hne : jp = [] <;> simp [mbTrackExtract, hcred, hfs, hid, hne]

/-- Witness for the amended C7 at concrete inputs: a structured entry
followed by `" feat. "` is stored under "t1"; a payload without an id, and
a payload whose credits hold no plain string, leave the table unchanged. -/
theorem capture_stores_first_nonempty_string_witness :
    mbTrackExtract tbl1
        ⟨some "t2", some [.entry 0, .str featJp, .entry 1]⟩ "t2" =
      some featJp ∧
    mbTrackExtract tbl1 ⟨none, some [.str featJp]⟩ "t1" = tbl1 "t1" ∧
    mbTrackExtract tbl1 ⟨some "t2", some [.entry 0, .entry 1]⟩ "t2" =
      tbl1 "t2" := by
  refine ⟨?_, ?_, ?_⟩
  · rw [(capture_stores_first_nonempty_string tbl1
      ⟨some "t2", some [.entry 0, .str featJp, .entry 1]⟩).1
      [.entry 0, .str featJp, .entry 1] featJp "t2" rfl rfl (by decide) rfl]
    simp
  · rw [(capture_stores_first_nonempty_string tbl1
      ⟨none, some [.str featJp]⟩).2.2.2.2 [.str featJp] featJp rfl rfl rfl]
  · rw [(capture_stores_first_nonempty_string tbl1
      ⟨some "t2", some [.entry 0, .entry 1]⟩).2.2.1
      [.entry 0, .entry 1] rfl rfl]

/-! ### Claim C10 -/

/-- Claim C10: the track-record-arrived handler never mutates anything
observable: it returns the incoming record itself (write log included)
unchanged and leaves the join-phrase table and pending-album map
unchanged; a record carrying a position-within-release index leaves the
whole state untouched, and an index-less record with a truthy identifier
is only added to the internal pending-track map, never modified. -/
theorem trackinfo_received_frame (st : PluginState) (info : TrackInfo) :
    (trackinfoReceived st info).2 = info ∧
    (trackinfoReceived st info).1.track_join_phrases =
      st.track_join_phrases ∧
    (trackinfoReceived st info).1.pending_albums = st.pending_albums ∧
    (∀ n, info.index = some n → (trackinfoReceived st info).1 = st) ∧
    (info.index = none →
      ∀ i, info.track_id = some i → i ≠ "" →
        (trackinfoReceived st info).1.pending_tracks =
          fun k => if k = i then some info else st.pending_tracks k) := by
  cases hidx : info.index with
  | some n =>
    refine ⟨?_, ?_, ?_, ?_, ?_⟩ <;>
      simp [trackinfoReceived, hidx]
  | none =>
    cases htid : info.track_id with
    | none =>
      refine ⟨?_, ?_, ?_, ?_, ?_⟩ <;>
        simp [trackinfoReceived, hidx, htid]
    | some i =>
      by_cases hi : i = "" <;>
        refine ⟨?_, ?_, ?_, ?_, ?_⟩ <;>
          simp [trackinfoReceived, hidx, htid, hi] <;>
          (intro j hj; simp [← hj, hi])

/-- Witness for C10 at concrete inputs: receiving `trk1` (index-less,
id "t1") returns the record unchanged, keeps the join-phrase table, and
pends the track under "t1". -/
theorem trackinfo_received_frame_witness :
    (trackinfoReceived
        ⟨fun _ => none, fun _ => none, tbl1⟩ trk1).2 = trk1 ∧
    (trackinfoReceived
        ⟨fun _ => none, fun _ => none, tbl1⟩ trk1).1.track_join_phrases =
      tbl1 ∧
    (trackinfoReceived
        ⟨fun _ => none, fun _ => none, tbl1⟩ trk1).1.pending_tracks =
      fun k => if k = "t1" then some trk1 else none := by
  have h := trackinfo_received_frame ⟨fun _ => none, fun _ => none, tbl1⟩ trk1
  exact ⟨h.1, h.2.1, h.2.2.2.2 rfl "t1" rfl (by decide)⟩

/-! ### Claim C8 -/

/-- Modelled from the spec (§4.6): the scrub stage of the per-track step,
run only when feature-dropping is configured with a non-empty field
list. -/
def specScrubStage (cfg : Config) (x : TrackInfo × Table) :
    Except PyError (TrackInfo × Table) :=
  if cfg.drop_feats_from_fields ≠ [] then
    scrubTrackFeats cfg.drop_feats_from_fields x.2 x.1
  else .ok x

/-- Modelled from the spec (§4.6): field processing of one track record
with the release-wide decoder. -/
def specProcessTrack (cfg : Config) (gc : Char → GC)
    (nrm : NormMode → List Char → List Char)
    (decoder : Option (List Char → List Char)) (t : TrackInfo) : TrackInfo :=
  let aw := processAttrs cfg gc nrm decoder t.attrs t.written
  { t with attrs := aw.1, written := aw.2 }

/-- Modelled from the spec (§4.6): the per-track step — scrub first, then
the field processor. -/
def specTrackStage (cfg : Config) (gc : Char → GC)
    (nrm : NormMode → List Char → List Char)
    (decoder : Option (List Char → List Char)) (x : TrackInfo × Table) :
    Except PyError (TrackInfo × Table) :=
  (specScrubStage cfg x).map fun y =>
    (specProcessTrack cfg gc nrm decoder y.1, y.2)

/-- Modelled from the spec (§4.6): run the per-track step over the tracks
in the release's track order, threading the join-phrase table. -/
def specTracksInOrder (cfg : Config) (gc : Char → GC)
    (nrm : NormMode → List Char → List Char)
    (decoder : Option (List Char → List Char)) :
    List TrackInfo → Table → Except PyError (List TrackInfo × Table)
  | [], tb => .ok ([], tb)
  | t :: ts, tb => do
    let (t', tb') ← specTrackStage cfg gc nrm decoder (t, tb)
    let (ts', tb'') ← specTracksInOrder cfg gc nrm decoder ts tb'
    .ok (t' :: ts', tb'')

/-- Modelled from the spec (§4.6): field processing of the release record
itself. -/
def specProcessAlbum (cfg : Config) (gc : Char → GC)
    (nrm : NormMode → List Char → List Char)
    (decoder : Option (List Char → List Char)) (al : AlbumInfo) : AlbumInfo :=
  let aw := processAttrs cfg gc nrm decoder al.attrs al.written
  { al with attrs := aw.1, written := aw.2 }

theorem albumLoop_eq_specTracksInOrder (cfg : Config) (gc : Char → GC)
    (nrm : NormMode → List Char → List Char)
    (decoder : Option (List Char → List Char)) :
    ∀ (ts : List TrackInfo) (tb : Table),
      albumLoop cfg gc nrm decoder ts tb =
        specTracksInOrder cfg gc nrm decoder ts tb := by
  intro ts
  induction ts with
  | nil => intro tb; rfl
  | cons t rest ih =>
    intro tb
    rw [albumLoop, specTracksInOrder]
    by_cases hdf : cfg.drop_feats_from_fields ≠ []
    · simp only [specTrackStage, specScrubStage, if_pos hdf]
      cases hscrub : scrubTrackFeats cfg.drop_feats_from_fields tb t with
      | error e => simp [hscrub, Except.map, Except.bind, bind]
      | ok y =>
        simp only [hscrub, Except.map, Except.bind, bind]
        rw [ih y.2]
        cases specTracksInOrder cfg gc nrm decoder rest y.2 with
        | error e => rfl
        | ok z => simp [specProcessTrack]
    · simp only [specTrackStage, specScrubStage, if_neg hdf, Except.map,
        Except.bind, bind]
      rw [ih tb]
      cases specTracksInOrder cfg gc nrm decoder rest tb with
      | error e => rfl
      | ok z => simp [specProcessTrack]

/-- Claim C8: on release-record arrival the handler behaves as the staged
composition that resolves exactly one decoder for the whole release from
the release's own language and script attributes, then runs — for every
track of the release, in the release's track order — the scrub stage
(only when the feature-drop field list is non-empty) followed by field
processing of that track with that same release-wide decoder, and finally
field-processes the release record itself after all tracks (in
particular, the release record is left unprocessed when a track raises). -/
theorem album_handler_is_staged_orchestration (cfg : Config)
    (gc : Char → GC) (nrm : NormMode → List Char → List Char)
    (unidec : String → List Char → List Char) (table : Table)
    (info : AlbumInfo) :
    albuminfoReceived cfg gc nrm unidec table info =
      (specTracksInOrder cfg gc nrm
          ((getDecoderLang cfg.langs_enabled cfg.han_preference
            info.language info.script).map unidec)
          info.tracks table).map
        fun p =>
          ({ specProcessAlbum cfg gc nrm
              ((getDecoderLang cfg.langs_enabled cfg.han_preference
                info.language info.script).map unidec)
              info with tracks := p.1 }, p.2) := by
  rw [albuminfoReceived]
  rw [albumLoop_eq_specTracksInOrder]
  cases specTracksInOrder cfg gc nrm
      ((getDecoderLang cfg.langs_enabled cfg.han_preference
        info.language info.script).map unidec) info.tracks table with
  | error e => rfl
  | ok p => simp [Except.map, Except.bind, bind, specProcessAlbum]

/-! ### Claim C5: character-level view of stages 2-4 -/

/-- The per-character effect of the hyphen stage. -/
def charH (cfg : Config) (gc : Char → GC) (c : Char) : Char :=
  if cfg.simplify_hyphens then (if gc c = .Pd then '-' else c) else c

/-- The per-character effect of the quote stage (three substitutions in
sequence). -/
def charQ (cfg : Config) (gc : Char → GC) (c : Char) : Char :=
  if cfg.simplify_curly_quotes then
    (let c1 := if c ∈ singleQuoteSet then chr 0x27 else c
     let c2 := if c1 ∈ doubleQuoteSet then chr 0x22 else c1
     if gc c2 = .Pi ∨ gc c2 = .Pf then chr 0x22 else c2)
  else c

/-- The per-character effect of the bracket stage when both replacement
strings are single characters `lc` and `rc`. -/
def charB (cfg : Config) (gc : Char → GC) (lc rc : Char) (c : Char) : Char :=
  if cfg.simplify_brackets then
    (let c1 := if gc c = .Ps then lc else c
     if gc c1 = .Pe then rc else c1)
  else c

/-- The per-character effect of stages 2-4 combined. -/
def charPipe (cfg : Config) (gc : Char → GC) (lc rc : Char) (c : Char) :
    Char :=
  charB cfg gc lc rc (charQ cfg gc (charH cfg gc c))

/-- A character that every one of stages 2-4 leaves in place. -/
def FixChar (cfg : Config) (gc : Char → GC) (lc rc : Char) (c : Char) :
    Prop :=
  charH cfg gc c = c ∧ charQ cfg gc c = c ∧ charB cfg gc lc rc c = c

/-- Facts about the characters the pipeline inserts, true of the real
Unicode category table. -/
structure StdChars (gc : Char → GC) : Prop where
  sp : gc ' ' = .Zs
  hy : gc '-' = .Pd
  q1 : gc (chr 0x27) = .Po
  q2 : gc (chr 0x22) = .Po

/-- A bracket-replacement character that stages 1-3 cannot rewrite. -/
structure BracketOK (gc : Char → GC) (x : Char) : Prop where
  nz : isZCat gc x = false
  pd : gc x = .Pd → x = '-'
  sq : x ∉ singleQuoteSet
  dq : x ∉ doubleQuoteSet
  pi : gc x ≠ .Pi
  pf : gc x ≠ .Pf

theorem fixChar_dash (cfg : Config) (gc : Char → GC) (lc rc : Char)
    (hstd : StdChars gc) : FixChar cfg gc lc rc '-' := by
  refine ⟨?_, ?_, ?_⟩
  · simp [charH]
  · simp [charQ, hstd.hy, singleQuoteSet, doubleQuoteSet, chr]
  · simp [charB, hstd.hy]

theorem fixChar_q1 (cfg : Config) (gc : Char → GC) (lc rc : Char)
    (hstd : StdChars gc) : FixChar cfg gc lc rc (chr 0x27) := by
  refine ⟨?_, ?_, ?_⟩
  · simp [charH, hstd.q1]
  · have h1 : chr 0x27 ∉ singleQuoteSet := by decide
    have h2 : chr 0x27 ∉ doubleQuoteSet := by decide
    simp [charQ, h1, h2, hstd.q1]
  · simp [charB, hstd.q1]

theorem fixChar_q2 (cfg : Config) (gc : Char → GC) (lc rc : Char)
    (hstd : StdChars gc) : FixChar cfg gc lc rc (chr 0x22) := by
  refine ⟨?_, ?_, ?_⟩
  · simp [charH, hstd.q2]
  · have h1 : chr 0x22 ∉ singleQuoteSet := by decide
    have h2 : chr 0x22 ∉ doubleQuoteSet := by decide
    simp [charQ, h1, h2, hstd.q2]
  · simp [charB, hstd.q2]

theorem fixChar_left (cfg : Config) (gc : Char → GC) (lc rc : Char)
    (hl : BracketOK gc lc) (hlpe : gc lc ≠ .Pe) :
    FixChar cfg gc lc rc lc := by
  refine ⟨?_, ?_, ?_⟩
  · by_cases hpd : gc lc = .Pd
    · have := hl.pd hpd
      simp [charH, hpd, this]
    · simp [charH, hpd]
  · simp [charQ, hl.sq, hl.dq, hl.pi, hl.pf]
  · simp [charB, hlpe]

theorem fixChar_right (cfg : Config) (gc : Char → GC) (lc rc : Char)
    (hr : BracketOK gc rc) (hrps : gc rc ≠ .Ps) :
    FixChar cfg gc lc rc rc := by
  refine ⟨?_, ?_, ?_⟩
  · by_cases hpd : gc rc = .Pd
    · have := hr.pd hpd
      simp [charH, hpd, this]
    · simp [charH, hpd]
  · simp [charQ, hr.sq, hr.dq, hr.pi, hr.pf]
  · simp [charB, hrps]

theorem charH_idem (cfg : Config) (gc : Char → GC) (c : Char) :
    charH cfg gc (charH cfg gc c) = charH cfg gc c := by
  by_cases ht : cfg.simplify_hyphens
  · by_cases hpd : gc c = .Pd <;> simp [charH, ht, hpd]
  · simp [charH, ht]

/-- Every character produced by the combined stage-2-4 character map is a
fixed point of all three stages. -/
theorem charPipe_fix (cfg : Config) (gc : Char → GC) (lc rc : Char)
    (hstd : StdChars gc) (hl : BracketOK gc lc) (hlpe : gc lc ≠ .Pe)
    (hr : BracketOK gc rc) (hrps : gc rc ≠ .Ps) (c : Char) :
    FixChar cfg gc lc rc (charPipe cfg gc lc rc c) := by
  have hyy : charH cfg gc (charH cfg gc c) = charH cfg gc c :=
    charH_idem cfg gc c
  have hx : charQ cfg gc (charH cfg gc c) = chr 0x27 ∨
      charQ cfg gc (charH cfg gc c) = chr 0x22 ∨
      charQ cfg gc (charH cfg gc c) = charH cfg gc c ∧
        charQ cfg gc (charH cfg gc c) = charQ cfg gc (charH cfg gc c) ∧
        (cfg.simplify_curly_quotes →
          charH cfg gc c ∉ singleQuoteSet ∧
          charH cfg gc c ∉ doubleQuoteSet ∧
          ¬(gc (charH cfg gc c) = .Pi ∨ gc (charH cfg gc c) = .Pf)) := by
    by_cases hqt : cfg.simplify_curly_quotes
    · by_cases h1 : charH cfg gc c ∈ singleQuoteSet
      · exact Or.inl (by
          have h2 : chr 0x27 ∉ doubleQuoteSet := by decide
          simp [charQ, hqt, h1, h2, hstd.q1])
      · by_cases h2 : charH cfg gc c ∈ doubleQuoteSet
        · exact Or.inr (Or.inl (by simp [charQ, hqt, h1, h2]))
        · by_cases h3 : gc (charH cfg gc c) = .Pi ∨ gc (charH cfg gc c) = .Pf
          · exact Or.inr (Or.inl (by simp [charQ, hqt, h1, h2, h3]))
          · exact Or.inr (Or.inr
              ⟨by simp [charQ, hqt, h1, h2, h3], rfl,
                fun _ => ⟨h1, h2, h3⟩⟩)
    · exact Or.inr (Or.inr ⟨by simp [charQ, hqt], rfl, fun h => absurd h hqt⟩)
  have hcommon : charH cfg gc (charQ cfg gc (charH cfg gc c)) =
        charQ cfg gc (charH cfg gc c) ∧
      charQ cfg gc (charQ cfg gc (charH cfg gc c)) =
        charQ cfg gc (charH cfg gc c) := by
    rcases hx with h | h | ⟨heq, _, hfacts⟩
    · rw [h]
      exact ⟨(fixChar_q1 cfg gc lc rc hstd).1, (fixChar_q1 cfg gc lc rc hstd).2.1⟩
    · rw [h]
      exact ⟨(fixChar_q2 cfg gc lc rc hstd).1, (fixChar_q2 cfg gc lc rc hstd).2.1⟩
    · rw [heq]
      refine ⟨hyy, ?_⟩
      by_cases hqt : cfg.simplify_curly_quotes
      · obtain ⟨h1, h2, h3⟩ := hfacts hqt
        simp [charQ, hqt, h1, h2, h3]
      · simp [charQ, hqt]
  show FixChar cfg gc lc rc
    (charB cfg gc lc rc (charQ cfg gc (charH cfg gc c)))
  by_cases hbt : cfg.simplify_brackets
  · by_cases hps : gc (charQ cfg gc (charH cfg gc c)) = .Ps
    · have hout : charB cfg gc lc rc (charQ cfg gc (charH cfg gc c)) = lc := by
        simp [charB, hbt, hps, hlpe]
      rw [hout]
      exact fixChar_left cfg gc lc rc hl hlpe
    · by_cases hpe : gc (charQ cfg gc (charH cfg gc c)) = .Pe
      · have hout : charB cfg gc lc rc (charQ cfg gc (charH cfg gc c)) =
            rc := by
          simp [charB, hbt, hps, hpe]
        rw [hout]
        exact fixChar_right cfg gc lc rc hr hrps
      · have hout : charB cfg gc lc rc (charQ cfg gc (charH cfg gc c)) =
            charQ cfg gc (charH cfg gc c) := by
          simp [charB, hbt, hps, hpe]
        rw [hout]
        exact ⟨hcommon.1, hcommon.2, hout⟩
  · have hout : charB cfg gc lc rc (charQ cfg gc (charH cfg gc c)) =
        charQ cfg gc (charH cfg gc c) := by
      simp [charB, hbt]
    rw [hout]
    exact ⟨hcommon.1, hcommon.2, hout⟩

theorem charPipe_of_fixChar (cfg : Config) (gc : Char → GC) (lc rc c : Char)
    (h : FixChar cfg gc lc rc c) : charPipe cfg gc lc rc c = c := by
  unfold charPipe
  rw [h.1, h.2.1, h.2.2]

theorem charH_cases (cfg : Config) (gc : Char → GC) (c : Char) :
    charH cfg gc c = '-' ∨ charH cfg gc c = c := by
  unfold charH
  by_cases h1 : cfg.simplify_hyphens
  · by_cases h2 : gc c = .Pd <;> simp [h1, h2]
  · simp [h1]

theorem charQ_cases (cfg : Config) (gc : Char → GC) (c : Char) :
    charQ cfg gc c = chr 0x27 ∨ charQ cfg gc c = chr 0x22 ∨
      charQ cfg gc c = c := by
  unfold charQ
  by_cases h1 : cfg.simplify_curly_quotes
  · by_cases h2 : c ∈ singleQuoteSet
    · by_cases h3 : gc (chr 0x27) = .Pi ∨ gc (chr 0x27) = .Pf <;>
        · have h4 : chr 0x27 ∉ doubleQuoteSet := by decide
          simp [h1, h2, h3, h4]
    · by_cases h3 : c ∈ doubleQuoteSet
      · by_cases h4 : gc (chr 0x22) = .Pi ∨ gc (chr 0x22) = .Pf <;>
          simp [h1, h2, h3, h4]
      · by_cases h4 : gc c = .Pi ∨ gc c = .Pf <;> simp [h1, h2, h3, h4]
  · simp [h1]

theorem charB_cases (cfg : Config) (gc : Char → GC) (lc rc c : Char) :
    charB cfg gc lc rc c = lc ∨ charB cfg gc lc rc c = rc ∨
      charB cfg gc lc rc c = c := by
  unfold charB
  by_cases h1 : cfg.simplify_brackets
  · by_cases h2 : gc c = .Ps
    · by_cases h3 : gc lc = .Pe <;> simp [h1, h2, h3]
    · by_cases h3 : gc c = .Pe <;> simp [h1, h2, h3]
  · simp [h1]

theorem charPipe_space (cfg : Config) (gc : Char → GC) (lc rc : Char)
    (hstd : StdChars gc) : charPipe cfg gc lc rc ' ' = ' ' := by
  have h1 : ' ' ∉ singleQuoteSet := by decide
  have h2 : ' ' ∉ doubleQuoteSet := by decide
  unfold charPipe charB charQ charH
  simp [hstd.sp, h1, h2]

/-- The stage-2-4 character map reflects separator status: a separator in
its image was a separator left untouched. -/
theorem charPipe_Z (cfg : Config) (gc : Char → GC) (lc rc : Char)
    (hstd : StdChars gc) (hl : BracketOK gc lc) (hr : BracketOK gc rc)
    (c : Char) (hz : isZCat gc (charPipe cfg gc lc rc c) = true) :
    charPipe cfg gc lc rc c = c ∧ isZCat gc c = true := by
  unfold charPipe at hz ⊢
  rcases charB_cases cfg gc lc rc (charQ cfg gc (charH cfg gc c)) with
    hb | hb | hb
  · rw [hb] at hz
    exact absurd hz (by simp [hl.nz])
  · rw [hb] at hz
    exact absurd hz (by simp [hr.nz])
  · rw [hb] at hz ⊢
    rcases charQ_cases cfg gc (charH cfg gc c) with hq | hq | hq
    · rw [hq] at hz
      exact absurd hz (by simp [isZCat, hstd.q1])
    · rw [hq] at hz
      exact absurd hz (by simp [isZCat, hstd.q2])
    · rw [hq] at hz ⊢
      rcases charH_cases cfg gc c with hh | hh
      · rw [hh] at hz
        exact absurd hz (by simp [isZCat, hstd.hy])
      · rw [hh] at hz ⊢
        exact ⟨rfl, hz⟩

theorem subPs_single (gc : Char → GC) (x : Char) (s : List Char) :
    subPs gc [x] s = s.map fun c => if gc c = .Ps then x else c := by
  induction s with
  | nil => rfl
  | cons c cs ih => by_cases h : gc c = .Ps <;> simp [subPs, h, ih]

theorem subPe_single (gc : Char → GC) (x : Char) (s : List Char) :
    subPe gc [x] s = s.map fun c => if gc c = .Pe then x else c := by
  induction s with
  | nil => rfl
  | cons c cs ih => by_cases h : gc c = .Pe <;> simp [subPe, h, ih]

/-- Stages 2-4 of the pipeline as one function. -/
def stage234 (cfg : Config) (gc : Char → GC) (s : List Char) : List Char :=
  let s2 := if cfg.simplify_hyphens then subPd gc s else s
  let s3 := if cfg.simplify_curly_quotes then subPiPf gc (subDq (subSq s2))
    else s2
  if cfg.simplify_brackets then
    subPe gc cfg.right_bracket (subPs gc cfg.left_bracket s3)
  else s3

theorem processString_stage_view (cfg : Config) (gc : Char → GC)
    (nrm : NormMode → List Char → List Char)
    (hmode : cfg.unicode_normalization_mode = none) (s : List Char) :
    processString cfg gc nrm none s =
      pyStrip gc
        (stage234 cfg gc (if cfg.simplify_whitespace then subZ gc s else s)) := by
  simp [processString, stage234, hmode]

theorem map_fix {α : Type} (f : α → α) (l : List α)
    (h : ∀ c ∈ l, f c = c) : l.map f = l := by
  induction l with
  | nil => rfl
  | cons c cs ih =>
    rw [List.map_cons, h c (List.mem_cons_self c cs),
      ih fun d hd => h d (List.mem_cons_of_mem c hd)]

theorem stage234_map (cfg : Config) (gc : Char → GC) (lc rc : Char)
    (hL : cfg.left_bracket = [lc]) (hR : cfg.right_bracket = [rc])
    (s : List Char) :
    stage234 cfg gc s = s.map (charPipe cfg gc lc rc) := by
  unfold stage234
  rw [hL, hR]
  by_cases h2 : cfg.simplify_hyphens <;>
    by_cases h3 : cfg.simplify_curly_quotes <;>
      by_cases h4 : cfg.simplify_brackets
  all_goals
    simp [h2, h3, h4, subPd, subSq, subDq, subPiPf, subPs_single,
      subPe_single, List.map_map]
  all_goals
    first
    | (intro c _;
       simp [charPipe, charB, charQ, charH, h2, h3, h4, Function.comp])
    | (refine List.map_congr_left fun c _ => ?_;
       simp [charPipe, charB, charQ, charH, h2, h3, h4, Function.comp])
    | (symm;
       refine map_fix _ _ fun c _ => ?_;
       simp [charPipe, charB, charQ, charH, h2, h3, h4])

/-! ### Separator-run invariant: outputs of the whitespace stage -/

/-- A string whose separator characters are all single ASCII spaces with
no two adjacent. -/
def IZ (gc : Char → GC) (l : List Char) : Prop :=
  (∀ c ∈ l, isZCat gc c = true → c = ' ') ∧
    l.Chain' fun a b => ¬(isZCat gc a = true ∧ isZCat gc b = true)

theorem subZGo_IZ (gc : Char → GC) (hsp : gc ' ' = .Zs) :
    ∀ (l : List Char) (b : Bool),
      (∀ c ∈ subZGo gc b l, isZCat gc c = true → c = ' ') ∧
      (subZGo gc b l).Chain'
        (fun a c => ¬(isZCat gc a = true ∧ isZCat gc c = true)) ∧
      (b = true → ∀ d ∈ (subZGo gc b l).head?, isZCat gc d = false) := by
  intro l
  induction l with
  | nil =>
    intro b
    refine ⟨by simp [subZGo], by simp [subZGo], ?_⟩
    intro _ d hd
    simp [subZGo] at hd
  | cons c cs ih =>
    intro b
    by_cases hz : isZCat gc c = true
    · cases b with
      | true =>
        have h := ih true
        have e : subZGo gc true (c :: cs) = subZGo gc true cs := by
          simp [subZGo, hz]
        rw [e]
        exact ⟨h.1, h.2.1, fun _ => h.2.2 rfl⟩
      | false =>
        have h := ih true
        have e : subZGo gc false (c :: cs) = ' ' :: subZGo gc true cs := by
          simp [subZGo, hz]
        rw [e]
        refine ⟨?_, ?_, ?_⟩
        · intro d hd hdz
          rcases List.mem_cons.1 hd with rfl | hdm
          · rfl
          · exact h.1 d hdm hdz
        · rw [List.chain'_cons']
          refine ⟨?_, h.2.1⟩
          intro y hy
          have hyz := h.2.2 rfl y hy
          intro hcon
          rw [hyz] at hcon
          exact Bool.noConfusion hcon.2
        · intro hb
          exact absurd hb (by simp)
    · have h := ih false
      have e : subZGo gc b (c :: cs) = c :: subZGo gc false cs := by
        cases b <;> simp [subZGo, hz]
      rw [e]
      refine ⟨?_, ?_, ?_⟩
      · intro d hd hdz
        rcases List.mem_cons.1 hd with rfl | hdm
        · exact absurd hdz hz
        · exact h.1 d hdm hdz
      · rw [List.chain'_cons']
        refine ⟨?_, h.2.1⟩
        intro y _
        intro hcon
        exact hz hcon.1
      · intro _ d hd
        simp only [List.head?_cons, Option.mem_some_iff] at hd
        rw [← hd]
        simp [hz]

theorem subZ_IZ (gc : Char → GC) (hsp : gc ' ' = .Zs) (l : List Char) :
    IZ gc (subZ gc l) :=
  ⟨(subZGo_IZ gc hsp l false).1, (subZGo_IZ gc hsp l false).2.1⟩

theorem subZGo_fix (gc : Char → GC) :
    ∀ l : List Char, IZ gc l →
      subZGo gc false l = l ∧
      ((∀ d ∈ l.head?, isZCat gc d = false) → subZGo gc true l = l) := by
  intro l
  induction l with
  | nil => exact fun _ => ⟨rfl, fun _ => rfl⟩
  | cons c cs ih =>
    intro hiz
    have hizcs : IZ gc cs :=
      ⟨fun d hd => hiz.1 d (List.mem_cons_of_mem c hd), hiz.2.tail⟩
    have hchain := (List.chain'_cons'.1 hiz.2).1
    constructor
    · by_cases hz : isZCat gc c = true
      · have hcsp : c = ' ' := hiz.1 c (List.mem_cons_self c cs) hz
        have hrec : subZGo gc true cs = cs := by
          refine (ih hizcs).2 ?_
          intro d hd
          have := hchain d hd
          rw [Bool.eq_false_iff]
          intro hdz
          exact this ⟨hz, hdz⟩
        subst hcsp
        simp [subZGo, hz, hrec]
      · have hrec : subZGo gc false cs = cs := (ih hizcs).1
        simp [subZGo, hz, hrec]
    · intro hhd
      have hz : isZCat gc c = false := hhd c (by simp)
      have hrec : subZGo gc false cs = cs := (ih hizcs).1
      simp [subZGo, hz, hrec]

theorem subZ_fix (gc : Char → GC) (l : List Char) (h : IZ gc l) :
    subZ gc l = l :=
  (subZGo_fix gc l h).1

/-- `IZ` survives mapping by the stage-2-4 character function. -/
theorem IZ_map_charPipe (cfg : Config) (gc : Char → GC) (lc rc : Char)
    (hstd : StdChars gc) (hl : BracketOK gc lc) (hr : BracketOK gc rc)
    (l : List Char) (h : IZ gc l) :
    IZ gc (l.map (charPipe cfg gc lc rc)) := by
  constructor
  · intro d hd hdz
    obtain ⟨c, hc, rfl⟩ := List.mem_map.1 hd
    obtain ⟨hfix, hcz⟩ := charPipe_Z cfg gc lc rc hstd hl hr c hdz
    rw [hfix]
    exact h.1 c hc hcz
  · rw [List.chain'_map]
    refine h.2.imp ?_
    intro a b hab hcon
    obtain ⟨ha, haz⟩ := charPipe_Z cfg gc lc rc hstd hl hr a hcon.1
    obtain ⟨hb, hbz⟩ := charPipe_Z cfg gc lc rc hstd hl hr b hcon.2
    exact hab ⟨haz, hbz⟩

theorem Chain'_dropWhile {α : Type} {R : α → α → Prop} (p : α → Bool) :
    ∀ l : List α, l.Chain' R → (l.dropWhile p).Chain' R := by
  intro l
  induction l with
  | nil => intro _; simp
  | cons c cs ih =>
    intro h
    rw [List.dropWhile]
    split
    · exact ih h.tail
    · exact h

/-- `IZ` survives both ends of the strip. -/
theorem IZ_pyStrip (gc : Char → GC) (l : List Char) (h : IZ gc l) :
    IZ gc (pyStrip gc l) := by
  have hrev : ∀ m : List Char, IZ gc m → IZ gc m.reverse := by
    intro m hm
    constructor
    · intro c hc
      exact hm.1 c (List.mem_reverse.1 hc)
    · rw [List.chain'_reverse]
      refine hm.2.imp ?_
      intro a b hab hcon
      exact hab ⟨hcon.2, hcon.1⟩
  have hdw : ∀ m : List Char, IZ gc m → IZ gc (m.dropWhile (pyWs gc)) := by
    intro m hm
    constructor
    · intro c hc
      exact hm.1 c ((List.dropWhile_suffix (pyWs gc)).sublist.mem hc)
    · exact Chain'_dropWhile (pyWs gc) m hm.2
  exact hrev _ (hdw _ (hrev _ (hdw _ h)))

/-! ### Strip idempotence -/

theorem dropWhile_head_not {α : Type} (p : α → Bool) (l : List α) :
    ∀ d ∈ (l.dropWhile p).head?, p d = false := by
  induction l with
  | nil => simp
  | cons c cs ih =>
    rw [List.dropWhile]
    split
    · exact ih
    · intro d hd
      simp only [List.head?_cons, Option.mem_some_iff] at hd
      rw [← hd]
      simp_all

theorem dropWhile_of_head {α : Type} (p : α → Bool) (l : List α)
    (h : ∀ d ∈ l.head?, p d = false) : l.dropWhile p = l := by
  cases l with
  | nil => rfl
  | cons c cs =>
    have := h c (by simp)
    simp [List.dropWhile, this]

theorem getLast?_dropWhile {α : Type} (p : α → Bool) :
    ∀ l : List α, l.dropWhile p ≠ [] →
      (l.dropWhile p).getLast? = l.getLast? := by
  intro l
  induction l with
  | nil => simp
  | cons c cs ih =>
    intro hne
    rw [List.dropWhile] at hne ⊢
    split
    · rename_i hp
      simp only [hp] at hne
      cases hcs : cs with
      | nil =>
        subst hcs
        simp [List.dropWhile] at hne
      | cons d ds =>
        rw [← hcs, ih hne, hcs, List.getLast?_cons_cons]
    · rfl

theorem pyStrip_idem (gc : Char → GC) (l : List Char) :
    pyStrip gc (pyStrip gc l) = pyStrip gc l := by
  unfold pyStrip
  set p := pyWs gc
  set u := l.dropWhile p with hu
  set w := u.reverse.dropWhile p with hw
  have hstep1 : w.reverse.dropWhile p = w.reverse := by
    apply dropWhile_of_head
    intro d hd
    rw [List.head?_reverse] at hd
    by_cases hwnil : w = []
    · rw [hwnil] at hd
      simp at hd
    · rw [hw, getLast?_dropWhile p u.reverse (hw ▸ hwnil),
        List.getLast?_reverse] at hd
      exact dropWhile_head_not p l d (hu ▸ hd)
  rw [hstep1, List.reverse_reverse]
  have hstep2 : w.dropWhile p = w := by
    apply dropWhile_of_head
    exact dropWhile_head_not p u.reverse
  rw [hstep2]

/-! ### Claim C5: counterexample, amended statement, witness -/

theorem mem_pyStrip {gc : Char → GC} {c : Char} {l : List Char}
    (h : c ∈ pyStrip gc l) : c ∈ l := by
  unfold pyStrip at h
  rw [List.mem_reverse] at h
  have h2 := (List.dropWhile_suffix (pyWs gc)).sublist.mem h
  rw [List.mem_reverse] at h2
  exact (List.dropWhile_suffix (pyWs gc)).sublist.mem h2

/-- A configuration with only bracket simplification enabled and a
two-character left-bracket replacement string. -/
def cfgBrackets2 : Config :=
  { langs_enabled := [], tidy_unihandecode := false,
    drop_feats_from_fields := [], simplify_whitespace := false,
    simplify_hyphens := false, simplify_curly_quotes := false,
    simplify_brackets := true, left_bracket := ['(', '('],
    right_bracket := [')'], unicode_normalization_mode := none,
    process_fields := [], han_preference := "zh" }

/-- Claim C5, counterexample: with the settings bundle `cfgBrackets2`
(bracket simplification on, left replacement `"(("`), no capability, and
input `"("`, one pass yields `"(("` but a second pass yields `"(((("` —
the pipeline is not idempotent for every settings bundle. -/
theorem sanitize_not_idempotent_for_arbitrary_brackets :
    processString cfgBrackets2 gcDemo nrmId none
        (processString cfgBrackets2 gcDemo nrmId none ['(']) ≠
      processString cfgBrackets2 gcDemo nrmId none ['('] := by
  decide

/-- Claim C5 as amended: with no transliteration capability the cleanup
pipeline is idempotent for every settings bundle whose normalization mode
is "none" (the normal-form stage invokes the external `unicodedata`
rendering, modelled opaquely) and whose bracket replacement strings are
single characters that the cleanup stages themselves leave alone — not
separators, rewritten dashes, quote code points, or initial/final
punctuation, the left one not close-punctuation and the right one not
open-punctuation — as the defaults "(" and ")" are.  The category table
`gc` is only required to classify the four characters the stages insert
the way Unicode does. -/
theorem sanitize_idempotent_stable_brackets (cfg : Config)
    (gc : Char → GC) (nrm : NormMode → List Char → List Char) (lc rc : Char)
    (hmode : cfg.unicode_normalization_mode = none)
    (hL : cfg.left_bracket = [lc]) (hR : cfg.right_bracket = [rc])
    (hstd : StdChars gc) (hl : BracketOK gc lc) (hlpe : gc lc ≠ .Pe)
    (hr : BracketOK gc rc) (hrps : gc rc ≠ .Ps) (T : List Char) :
    processString cfg gc nrm none (processString cfg gc nrm none T) =
      processString cfg gc nrm none T := by
  have hview : ∀ s, processString cfg gc nrm none s =
      pyStrip gc
        (stage234 cfg gc
          (if cfg.simplify_whitespace then subZ gc s else s)) :=
    processString_stage_view cfg gc nrm hmode
  set y := processString cfg gc nrm none T with hy
  have hyform : y = pyStrip gc
      ((if cfg.simplify_whitespace then subZ gc T else T).map
        (charPipe cfg gc lc rc)) := by
    rw [hy, hview, stage234_map cfg gc lc rc hL hR]
  have hyfix : ∀ c ∈ y, charPipe cfg gc lc rc c = c := by
    intro c hc
    rw [hyform] at hc
    obtain ⟨c0, _, rfl⟩ := List.mem_map.1 (mem_pyStrip hc)
    exact charPipe_of_fixChar cfg gc lc rc _
      (charPipe_fix cfg gc lc rc hstd hl hlpe hr hrps c0)
  have hstage : stage234 cfg gc y = y := by
    rw [stage234_map cfg gc lc rc hL hR]
    exact map_fix _ _ hyfix
  have hs1 : (if cfg.simplify_whitespace then subZ gc y else y) = y := by
    by_cases hws : cfg.simplify_whitespace
    · rw [if_pos hws]
      apply subZ_fix
      rw [hyform]
      apply IZ_pyStrip
      apply IZ_map_charPipe cfg gc lc rc hstd hl hr
      rw [if_pos hws]
      exact subZ_IZ gc hstd.sp T
    · rw [if_neg hws]
  have htrim : pyStrip gc y = y := by
    rw [hyform]
    exact pyStrip_idem gc _
  rw [hview y, hs1, hstage, htrim]

/-- The default-like settings bundle used by the C5 witness: every
cleanup toggle on, default brackets, normalization mode none. -/
def cfgAllOn : Config :=
  { langs_enabled := [], tidy_unihandecode := false,
    drop_feats_from_fields := [], simplify_whitespace := true,
    simplify_hyphens := true, simplify_curly_quotes := true,
    simplify_brackets := true, left_bracket := ['('], right_bracket := [')'],
    unicode_normalization_mode := none, process_fields := [],
    han_preference := "zh" }

/-- The concrete text used by the C5 witness: double spaces, guillemets,
a curly apostrophe, fullwidth parentheses, and a Unicode hyphen. -/
def demoText : List Char := "  «a’s»  （b⸚ c）  ".toList

/-- Witness for the amended C5 at a concrete input: with every cleanup
toggle on and the default single-character brackets, sanitizing
`demoText` twice equals sanitizing it once, and the sanitized value is
the expected cleaned form. -/
theorem sanitize_idempotent_stable_brackets_witness :
    processString cfgAllOn gcDemo nrmId none
        (processString cfgAllOn gcDemo nrmId none demoText) =
      processString cfgAllOn gcDemo nrmId none demoText ∧
    processString cfgAllOn gcDemo nrmId none demoText =
      "\"a's\" (b- c)".toList := by
  refine ⟨sanitize_idempotent_stable_brackets cfgAllOn gcDemo nrmId '(' ')'
    rfl rfl rfl
    ⟨by decide, by decide, by decide, by decide⟩
    ⟨by decide, by decide, by decide, by decide, by decide, by decide⟩
    (by decide)
    ⟨by decide, by decide, by decide, by decide, by decide, by decide⟩
    (by decide) demoText, ?_⟩
  decide

end TagSanity
